import Mathlib

/-!
Verification of the program-data confidentiality core (`console/aleo/src/program/data.rs`):
the `Data` unit (plaintext-or-ciphertext with a visibility mode), the bit-to-field
codec with its terminus bit, and the encrypt/decrypt/data-id operations.

The field `N::Field` is embedded as `ZMod p` for the network's prime modulus `p`;
`N::Field::size_in_data_bits()` is the capacity constant `C` with `2 ^ C ≤ p`
(the capacity is strictly below the modulus bit-length).  The payload type `D`
(the `DataType: ToBits + FromBits` bound) is embedded as an arbitrary type with
two functions `to_bits_le : D → List Bool` and `from_bits_le : List Bool → D`.
External capabilities (curve scalar multiplication, x-coordinate extraction, and
the domain-separated sponge hash) are parameters of the definitions.
-/

namespace Aleo

/-- The visibility mode of `snarkvm_circuits_environment::Mode`. -/
inductive Mode where
  | Constant : Mode
  | Public : Mode
  | Private : Mode
deriving DecidableEq, Repr

/-- The accessor `Mode::is_constant`. -/
def Mode.is_constant : Mode → Bool
  | .Constant => true
  | _ => false

/-- The accessor `Mode::is_public`. -/
def Mode.is_public : Mode → Bool
  | .Public => true
  | _ => false

/-- The accessor `Mode::is_private`. -/
def Mode.is_private : Mode → Bool
  | .Private => true
  | _ => false

/-- The `Data<N, D>` enum: publicly-visible data, or data encrypted under the
account owner's address (a list of field elements). `F` is the network field. -/
inductive Data (F : Type) (D : Type) where
  | Plaintext : D → Mode → Data F D
  | Ciphertext : List F → Mode → Data F D
deriving DecidableEq, Repr

/-- The accessor `Data::mode`: returns the mode of the data. -/
def Data.mode {F D : Type} : Data F D → Mode
  | .Plaintext _ m => m
  | .Ciphertext _ m => m

/-- The predicate `Data::is_valid`: `true` iff the enum variant corresponds to the correct mode. -/
def Data.is_valid {F D : Type} : Data F D → Bool
  | .Plaintext _ m => m.is_constant || m.is_public
  | .Ciphertext _ m => m.is_private

/-- The value of a little-endian bit list, as in
`BigInteger::from_bits_le` applied to a bit chunk. -/
def natOfBitsLE : List Bool → Nat
  | [] => 0
  | b :: bs => Nat.bit b (natOfBitsLE bs)

/-- The first `C` little-endian bits of a natural number, as in
`p.to_bits_le()[..size_in_data_bits]` applied to a field element's representative. -/
def bitsLE : Nat → Nat → List Bool
  | 0, _ => []
  | c + 1, n => (decide (n % 2 = 1)) :: bitsLE c (n / 2)

/-- The call `bits.chunks(C)` with explicit fuel (the list length bounds the number of
chunks whenever `0 < C`; the source always calls this with
`C = size_in_data_bits ≥ 1`). -/
def chunksAux : Nat → Nat → List Bool → List (List Bool)
  | _, _, [] => []
  | 0, _, _ :: _ => []
  | fuel + 1, c, b :: bs => ((b :: bs).take c) :: chunksAux fuel c ((b :: bs).drop c)

/-- The call `bits.chunks(C)`: consecutive chunks of `C` bits, the last one possibly shorter. -/
def chunks (c : Nat) (l : List Bool) : List (List Bool) :=
  chunksAux l.length c l

section Codec

variable (p C : Nat) {D : Type}

/-- The method `Data::encode`: encode the data as little-endian bits, append the terminus
bit `true`, pack into chunks of `C` data bits, and recover a field element from
each chunk; `from_repr` returns `None` exactly when the chunk value is not a
canonical representative, i.e. not below the modulus `p`. -/
def encode (to_bits_le : D → List Bool) (data : D) : Except String (List (ZMod p)) :=
  let bits := to_bits_le data ++ [true]
  (chunks C bits).mapM (fun ch =>
    let n := natOfBitsLE ch
    if n < p then Except.ok ((n : ZMod p)) else
      Except.error "Failed to encode data bits into a base field")

/-- The field elements produced by a successful `encode`: one per chunk, in
chunk order (the error branch of `encode` is proved unreachable below). -/
def encodeFields (to_bits_le : D → List Bool) (data : D) : List (ZMod p) :=
  (chunks C (to_bits_le data ++ [true])).map (fun ch => ((natOfBitsLE ch : ZMod p)))

/-- The method `Data::decode`: unpack each field element into its first `C` little-endian
bits, concatenate, reverse, drop every extraneous `false` bit together with the
final `true` terminus bit, reverse back, and rebuild the data from the bits. -/
def decode (from_bits_le : List Bool → D) (plaintext : List (ZMod p)) : D :=
  let bits := plaintext.flatMap (fun f => bitsLE C f.val)
  let rest := (bits.reverse.dropWhile (fun b => !b)).drop 1
  from_bits_le rest.reverse

end Codec

section Engine

variable (p C : Nat) {D : Type} {Pt Sc : Type}

/-- Modelled external capability `N::hash_many_psd8`: a domain-separated sponge
hash producing exactly `n` pseudorandom field elements from the input; the
`i`-th output element is `elem input i`. -/
def hash_many_psd8 (elem : List (ZMod p) → Nat → ZMod p)
    (input : List (ZMod p)) (n : Nat) : List (ZMod p) :=
  (List.range n).map (elem input)

/-- The method `Data::encrypt`: if the unit is a `Private`-tagged plaintext, encode it,
derive the data view key from `address * randomizer`, mask each field element
with the hash-derived one-time pad, and return a `Private`-tagged ciphertext;
any other unit is returned unchanged.  `smul` is curve scalar multiplication,
`xcoord` extracts the affine x-coordinate, `dom` is `N::encryption_domain()`. -/
def encrypt (to_bits_le : D → List Bool) (smul : Pt → Sc → Pt) (xcoord : Pt → ZMod p)
    (dom : ZMod p) (elem : List (ZMod p) → Nat → ZMod p)
    (unit : Data (ZMod p) D) (address : Pt) (randomizer : Sc) :
    Except String (Data (ZMod p) D) :=
  match unit with
  | .Plaintext data .Private =>
    match encode p C to_bits_le data with
    | .error e => .error e
    | .ok plaintext =>
      let data_view_key := xcoord (smul address randomizer)
      let randomizers := hash_many_psd8 p elem [dom, data_view_key] plaintext.length
      .ok (.Ciphertext (List.zipWith (fun a b => a + b) plaintext randomizers) .Private)
  | u => .ok u

/-- The method `Data::decrypt`: a plaintext unit passes through unchanged; a ciphertext is
unmasked by subtracting the hash-derived one-time pad (derived from
`nonce * view_key`), decoded, and returned as a plaintext carrying the
ciphertext's mode unchanged. -/
def decrypt (from_bits_le : List Bool → D) (smul : Pt → Sc → Pt) (xcoord : Pt → ZMod p)
    (dom : ZMod p) (elem : List (ZMod p) → Nat → ZMod p)
    (unit : Data (ZMod p) D) (view_key : Sc) (nonce : Pt) :
    Except String (Data (ZMod p) D) :=
  match unit with
  | .Plaintext d m => .ok (.Plaintext d m)
  | .Ciphertext ciphertext m =>
    let data_view_key := xcoord (smul nonce view_key)
    let randomizers := hash_many_psd8 p elem [dom, data_view_key] ciphertext.length
    let plaintext := List.zipWith (fun c r => c - r) ciphertext randomizers
    .ok (.Plaintext (decode p C from_bits_le plaintext) m)

/-- The method `Data::to_data_id`: requires the unit to be valid; hashes the encoding of a
plaintext payload, or the ciphertext field elements directly, with the 8-rate
sponge hash `psd8`. -/
def to_data_id (to_bits_le : D → List Bool) (psd8 : List (ZMod p) → ZMod p)
    (unit : Data (ZMod p) D) : Except String (ZMod p) :=
  match unit.is_valid with
  | true =>
    match unit with
    | .Plaintext data _ =>
      match encode p C to_bits_le data with
      | .error e => .error e
      | .ok fields => .ok (psd8 fields)
    | .Ciphertext fields _ => .ok (psd8 fields)
  | false => .error "Failed to compute the data ID as the data must be encrypted first"

end Engine

/-- The value of a bit list is below `2 ^ length`. -/
theorem natOfBitsLE_lt (l : List Bool) : natOfBitsLE l < 2 ^ l.length := by
  induction l with
  | nil => simp [natOfBitsLE]
  | cons b bs ih =>
    simp only [natOfBitsLE, List.length_cons, pow_succ]
    cases b <;> simp [Nat.bit] <;> omega

/-- The first `c` bits of `0` are all `false`. -/
theorem bitsLE_zero (c : Nat) : bitsLE c 0 = List.replicate c false := by
  induction c with
  | zero => rfl
  | succ c ih => simp [bitsLE, ih, List.replicate_succ]

/-- Truncating to `c` bits and re-reading gives the value modulo `2 ^ c`. -/
theorem natOfBitsLE_bitsLE (c n : Nat) : natOfBitsLE (bitsLE c n) = n % 2 ^ c := by
  induction c generalizing n with
  | zero => simp [bitsLE, natOfBitsLE, Nat.mod_one]
  | succ c ih =>
    simp only [bitsLE, natOfBitsLE, ih]
    rw [pow_succ, mul_comm, Nat.mod_mul]
    rcases Nat.mod_two_eq_zero_or_one n with h | h <;> simp [h, Nat.bit] <;> omega

/-- Reading a chunk of at most `c` bits back from its value recovers the chunk,
padded with trailing `false` bits up to width `c`. -/
theorem bitsLE_natOfBitsLE (c : Nat) (l : List Bool) (h : l.length ≤ c) :
    bitsLE c (natOfBitsLE l) = l ++ List.replicate (c - l.length) false := by
  induction l generalizing c with
  | nil => simpa [natOfBitsLE] using bitsLE_zero c
  | cons b bs ih =>
    cases c with
    | zero => simp at h
    | succ c =>
      simp only [natOfBitsLE, bitsLE, Nat.bit_mod_two, Nat.bit_div_two, List.length_cons] at *
      rw [ih c (by omega)]
      cases b <;> simp

/-- Every chunk produced by `chunksAux` has length at most `c`. -/
theorem chunksAux_length_le (fuel c : Nat) (l : List Bool) :
    ∀ ch ∈ chunksAux fuel c l, ch.length ≤ c := by
  induction fuel generalizing l with
  | zero => cases l <;> simp [chunksAux]
  | succ fuel ih =>
    cases l with
    | nil => simp [chunksAux]
    | cons b bs =>
      intro ch hch
      simp only [chunksAux, List.mem_cons] at hch
      rcases hch with h | h
      · subst h; simpa using Nat.min_le_left c (b :: bs).length
      · exact ih _ ch h

/-- Unpacking the first `c` bits of each chunk's field element recovers the
original bit stream followed by some run of trailing `false` padding bits. -/
theorem chunksAux_flatMap (p c : Nat) (hp : 1 < p) (hc : 0 < c) (hcap : 2 ^ c ≤ p)
    (fuel : Nat) (l : List Bool) (hfuel : l.length ≤ fuel) :
    ∃ k, (chunksAux fuel c l).flatMap
        (fun ch => bitsLE c ((natOfBitsLE ch : ZMod p)).val)
      = l ++ List.replicate k false := by
  haveI : NeZero p := ⟨by omega⟩
  induction fuel generalizing l with
  | zero =>
    cases l with
    | nil => exact ⟨0, rfl⟩
    | cons b bs => simp at hfuel
  | succ fuel ih =>
    cases l with
    | nil => exact ⟨0, rfl⟩
    | cons b bs =>
      simp only [chunksAux, List.flatMap_cons]
      have htk : ((b :: bs).take c).length ≤ c := by
        simpa using Nat.min_le_left c (b :: bs).length
      have hval : ((natOfBitsLE ((b :: bs).take c) : ZMod p)).val
          = natOfBitsLE ((b :: bs).take c) := by
        apply ZMod.val_cast_of_lt
        calc natOfBitsLE ((b :: bs).take c) < 2 ^ ((b :: bs).take c).length :=
              natOfBitsLE_lt _
          _ ≤ 2 ^ c := Nat.pow_le_pow_right (by omega) htk
          _ ≤ p := hcap
      rw [hval, bitsLE_natOfBitsLE c _ htk]
      by_cases hlen : (b :: bs).length ≤ c
      · have hdrop : (b :: bs).drop c = [] := List.drop_eq_nil_of_le hlen
        have htake : (b :: bs).take c = b :: bs := List.take_of_length_le hlen
        refine ⟨c - (b :: bs).length, ?_⟩
        simp [hdrop, chunksAux, htake]
      · push_neg at hlen
        have hdl : ((b :: bs).drop c).length ≤ fuel := by
          simp only [List.length_drop]
          simp only [List.length_cons] at hfuel ⊢
          omega
        obtain ⟨k, hk⟩ := ih ((b :: bs).drop c) hdl
        refine ⟨k, ?_⟩
        have htake : ((b :: bs).take c).length = c := by
          simp only [List.length_take]
          omega
        rw [htake, Nat.sub_self, List.replicate_zero, List.append_nil, hk,
          ← List.append_assoc, List.take_append_drop]

/-- The `mapM` of the chunk-to-field conversion succeeds when every chunk value is
a canonical representative. -/
theorem mapM_chunks_ok (p : Nat) (l : List (List Bool))
    (h : ∀ ch ∈ l, natOfBitsLE ch < p) :
    (l.mapM (fun ch =>
        let n := natOfBitsLE ch
        if n < p then Except.ok ((n : ZMod p)) else
          Except.error "Failed to encode data bits into a base field"))
      = Except.ok (l.map (fun ch => ((natOfBitsLE ch : ZMod p)))) := by
  induction l with
  | nil => rfl
  | cons ch t ih =>
    rw [List.mapM_cons, if_pos (h ch (by simp)), ih (fun a ha => h a (by simp [ha]))]
    rfl

/-- The error branch of `encode` is never taken: `encode` returns exactly the
field elements of `encodeFields`. -/
theorem encode_eq_ok (p C : Nat) {D : Type} (to_bits_le : D → List Bool)
    (hcap : 2 ^ C ≤ p) (data : D) :
    encode p C to_bits_le data = Except.ok (encodeFields p C to_bits_le data) := by
  unfold encode encodeFields
  apply mapM_chunks_ok
  intro ch hch
  have hlen : ch.length ≤ C := chunksAux_length_le _ _ _ ch hch
  calc natOfBitsLE ch < 2 ^ ch.length := natOfBitsLE_lt ch
    _ ≤ 2 ^ C := Nat.pow_le_pow_right (by omega) hlen
    _ ≤ p := hcap

/-- Decoding the fields produced by encoding recovers the original bit stream:
the terminus-scan drops exactly the padding and the terminus bit. -/
theorem decode_encodeFields (p C : Nat) {D : Type}
    (to_bits_le : D → List Bool) (from_bits_le : List Bool → D)
    (hp : 1 < p) (hC : 0 < C) (hcap : 2 ^ C ≤ p) (data : D) :
    decode p C from_bits_le (encodeFields p C to_bits_le data)
      = from_bits_le (to_bits_le data) := by
  unfold decode encodeFields
  dsimp only
  rw [List.flatMap_map]
  obtain ⟨k, hk⟩ := chunksAux_flatMap p C hp hC hcap
    (to_bits_le data ++ [true]).length (to_bits_le data ++ [true]) le_rfl
  rw [show (chunks C (to_bits_le data ++ [true])) = chunksAux
      (to_bits_le data ++ [true]).length C (to_bits_le data ++ [true]) from rfl, hk]
  rw [List.reverse_append, List.reverse_replicate, List.reverse_append]
  rw [List.dropWhile_append]
  have hrep : List.dropWhile (fun b => !b) (List.replicate k false) = [] :=
    List.dropWhile_eq_nil_iff.mpr (by simp)
  rw [hrep]
  simp

/-- C1: Round-trip of the Field Codec: for every payload `x` of a
BitSerializable type, decoding the field elements produced by encoding `x`
returns `x`, including when `x`'s bit-length is an exact multiple of the
capacity `C` so the terminus bit occupies a final chunk by itself. -/
theorem decode_encode_roundtrip (p C : Nat) {D : Type}
    (to_bits_le : D → List Bool) (from_bits_le : List Bool → D) (x : D)
    (hp : 1 < p) (hC : 0 < C) (hcap : 2 ^ C ≤ p)
    (hbs : from_bits_le (to_bits_le x) = x)
    (fs : List (ZMod p)) (henc : encode p C to_bits_le x = Except.ok fs) :
    decode p C from_bits_le fs = x := by
  rw [encode_eq_ok p C to_bits_le hcap x] at henc
  injection henc with h
  subst h
  rw [decode_encodeFields p C to_bits_le from_bits_le hp hC hcap x, hbs]

/-- Witness for C1, at the edge case: the 4-bit payload `[true, false, true,
true]` with capacity `C = 4` and modulus `p = 17`, whose terminus bit occupies
the final chunk by itself (`encode` yields the field elements `13` and `1`). -/
theorem decode_encode_roundtrip_witness :
    decode 17 4 (fun l => l) [((13 : ZMod 17)), ((1 : ZMod 17))]
      = [true, false, true, true] :=
  decode_encode_roundtrip 17 4 (fun l => l) (fun l => l) [true, false, true, true]
    (by decide) (by decide) (by decide) rfl [((13 : ZMod 17)), ((1 : ZMod 17))] rfl

/-- C3: the validity truth table: a `Plaintext` unit is valid exactly when
tagged `Constant` or `Public`; a `Ciphertext` unit is valid exactly when
tagged `Private`. -/
theorem is_valid_truth_table {F D : Type} :
    ∀ (d : D) (fs : List F),
      (Data.Plaintext d Mode.Constant : Data F D).is_valid = true
      ∧ (Data.Plaintext d Mode.Public : Data F D).is_valid = true
      ∧ (Data.Plaintext d Mode.Private : Data F D).is_valid = false
      ∧ (Data.Ciphertext fs Mode.Private : Data F D).is_valid = true
      ∧ (Data.Ciphertext fs Mode.Constant : Data F D).is_valid = false
      ∧ (Data.Ciphertext fs Mode.Public : Data F D).is_valid = false :=
  fun _ _ => ⟨rfl, rfl, rfl, rfl, rfl, rfl⟩

/-- C8: the `EncodingFailure` branch of `encode` is unreachable whenever the
capacity is positive and `2 ^ C` does not exceed the modulus (capacity strictly
below the modulus bit-length): `encode` always succeeds, returning one field
element per chunk. -/
theorem encode_never_fails (p C : Nat) {D : Type} (to_bits_le : D → List Bool)
    (hC : 0 < C) (hcap : 2 ^ C ≤ p) (x : D) :
    encode p C to_bits_le x = Except.ok (encodeFields p C to_bits_le x) :=
  encode_eq_ok p C to_bits_le hcap x

/-- Witness for C8 at the payload `[true, false, true, true]`. -/
theorem encode_never_fails_witness :
    encode 17 4 (fun l => l) [true, false, true, true]
      = Except.ok (encodeFields 17 4 (fun l => l) [true, false, true, true]) :=
  encode_never_fails 17 4 (fun l => l) (by decide) (by decide)
    [true, false, true, true]

/-- C9: every field element produced by `encode` is the image of a little-endian
chunk of at most `C` bits: its canonical representative is below `2 ^ C`, and
re-reading the element from its first `C` bits loses no information. -/
theorem encode_capacity_bound (p C : Nat) {D : Type} (to_bits_le : D → List Bool)
    (hcap : 2 ^ C ≤ p) (x : D) (fs : List (ZMod p))
    (henc : encode p C to_bits_le x = Except.ok fs) :
    ∀ f ∈ fs, f.val < 2 ^ C ∧ ((natOfBitsLE (bitsLE C f.val) : ZMod p)) = f := by
  rw [encode_eq_ok p C to_bits_le hcap x] at henc
  injection henc with h
  subst h
  intro f hf
  unfold encodeFields at hf
  obtain ⟨ch, hch, rfl⟩ := List.mem_map.mp hf
  have hlen : ch.length ≤ C := chunksAux_length_le _ _ _ ch hch
  have hlt : natOfBitsLE ch < 2 ^ C :=
    lt_of_lt_of_le (natOfBitsLE_lt ch) (Nat.pow_le_pow_right (by omega) hlen)
  have hval : ((natOfBitsLE ch : ZMod p)).val = natOfBitsLE ch :=
    ZMod.val_cast_of_lt (lt_of_lt_of_le hlt hcap)
  refine ⟨by rw [hval]; exact hlt, ?_⟩
  rw [hval, natOfBitsLE_bitsLE, Nat.mod_eq_of_lt hlt]

/-- Witness for C9: both field elements of the encoding of
`[true, false, true, true]` are bounded by `2 ^ 4` and survive truncation. -/
theorem encode_capacity_bound_witness :
    ((13 : ZMod 17)).val < 2 ^ 4
    ∧ ((natOfBitsLE (bitsLE 4 ((13 : ZMod 17)).val) : ZMod 17)) = 13 :=
  encode_capacity_bound 17 4 (fun l => l) (by decide) [true, false, true, true]
    [((13 : ZMod 17)), ((1 : ZMod 17))] rfl 13 (by decide)

/-- C10: `decode` is total on arbitrary field-element sequences: on the empty
sequence, and on any sequence whose concatenated capacity bits contain no
`true` bit, the terminus scan consumes everything and `decode` returns the
payload rebuilt from the empty bit sequence. -/
theorem decode_total_on_all_zero (p C : Nat) {D : Type}
    (from_bits_le : List Bool → D) :
    decode p C from_bits_le ([] : List (ZMod p)) = from_bits_le []
    ∧ ∀ fs : List (ZMod p),
        (∀ b ∈ fs.flatMap (fun f => bitsLE C f.val), b = false) →
        decode p C from_bits_le fs = from_bits_le [] := by
  refine ⟨rfl, ?_⟩
  intro fs h
  unfold decode
  dsimp only
  have hnil : List.dropWhile (fun b => !b)
      (fs.flatMap (fun f => bitsLE C f.val)).reverse = [] := by
    apply List.dropWhile_eq_nil_iff.mpr
    intro b hb
    rw [List.mem_reverse] at hb
    simp [h b hb]
  rw [hnil]
  rfl

/-- Witness for C10: decoding the all-zero two-element sequence over
`ZMod 17` with capacity `4` yields the payload of the empty bit list. -/
theorem decode_total_on_all_zero_witness :
    decode 17 4 (fun l => l) [((0 : ZMod 17)), ((0 : ZMod 17))] = [] :=
  (decode_total_on_all_zero 17 4 (fun l => l)).2
    [((0 : ZMod 17)), ((0 : ZMod 17))] (by decide)

/-- Element-wise unmasking: subtracting the pad from the masked field elements
recovers the originals, provided the pad is at least as long. -/
theorem zipWith_mask_unmask (p : Nat) (l r : List (ZMod p)) (h : l.length ≤ r.length) :
    List.zipWith (fun c rr => c - rr) (List.zipWith (fun a b => a + b) l r) r = l := by
  induction l generalizing r with
  | nil => simp
  | cons a t ih =>
    cases r with
    | nil => simp at h
    | cons b rt =>
      simp only [List.zipWith_cons_cons, add_sub_cancel_right, List.cons.injEq]
      exact ⟨trivial, ih rt (by simpa using h)⟩

/-- C2: Encrypt/decrypt inverse: encrypting a `Private`-tagged plaintext under
`address = generator * s` with ephemeral scalar `r`, then decrypting with the
viewer scalar `s` and nonce `generator * r`, recovers the original unit,
tag included; `hdh` is the Diffie-Hellman commutativity of the external curve. -/
theorem encrypt_decrypt_roundtrip (p C : Nat) {D Pt Sc : Type}
    (to_bits_le : D → List Bool) (from_bits_le : List Bool → D)
    (smul : Pt → Sc → Pt) (xcoord : Pt → ZMod p) (dom : ZMod p)
    (elem : List (ZMod p) → Nat → ZMod p)
    (x : D) (generator : Pt) (s r : Sc)
    (hp : 1 < p) (hC : 0 < C) (hcap : 2 ^ C ≤ p)
    (hbs : from_bits_le (to_bits_le x) = x)
    (hdh : smul (smul generator s) r = smul (smul generator r) s) :
    (encrypt p C to_bits_le smul xcoord dom elem
        (Data.Plaintext x Mode.Private) (smul generator s) r).bind
      (fun c => decrypt p C from_bits_le smul xcoord dom elem c s (smul generator r))
    = Except.ok (Data.Plaintext x Mode.Private) := by
  unfold encrypt
  dsimp only
  rw [encode_eq_ok p C to_bits_le hcap x]
  dsimp only [Except.bind]
  unfold decrypt
  dsimp only
  rw [← hdh]
  have hlen : ∀ n, (List.zipWith (fun a b => a + b)
      (encodeFields p C to_bits_le x)
      (hash_many_psd8 p elem
        [dom, xcoord (smul (smul generator s) r)] n)).length = min
        (encodeFields p C to_bits_le x).length n := by
    intro n
    simp [hash_many_psd8]
  rw [show (List.zipWith (fun a b => a + b) (encodeFields p C to_bits_le x)
      (hash_many_psd8 p elem [dom, xcoord (smul (smul generator s) r)]
        (encodeFields p C to_bits_le x).length)).length
      = (encodeFields p C to_bits_le x).length by rw [hlen]; exact Nat.min_self _]
  rw [zipWith_mask_unmask p _ _ (by simp [hash_many_psd8])]
  rw [decode_encodeFields p C to_bits_le from_bits_le hp hC hcap x, hbs]

/-- Witness for C2 at a concrete toy instance: modulus `17`, capacity `4`,
payload `[true, false, true, true]`, curve modelled as `Nat` with
multiplication, generator `3`, viewer scalar `2`, ephemeral scalar `4`. -/
theorem encrypt_decrypt_roundtrip_witness :
    (encrypt 17 4 (fun l => l) (fun (P : Nat) (sc : Nat) => P * sc)
        (fun n => ((n : ZMod 17))) 5 (fun _ i => ((i : ZMod 17)) + 2)
        (Data.Plaintext [true, false, true, true] Mode.Private) (3 * 2) 4).bind
      (fun c => decrypt 17 4 (fun l => l) (fun (P : Nat) (sc : Nat) => P * sc)
        (fun n => ((n : ZMod 17))) 5 (fun _ i => ((i : ZMod 17)) + 2) c 2 (3 * 4))
    = Except.ok (Data.Plaintext [true, false, true, true] Mode.Private) :=
  encrypt_decrypt_roundtrip 17 4 (fun l => l) (fun l => l)
    (fun (P : Nat) (sc : Nat) => P * sc) (fun n => ((n : ZMod 17))) 5
    (fun _ i => ((i : ZMod 17)) + 2) [true, false, true, true] 3 2 4
    (by decide) (by decide) (by decide) rfl rfl

/-- C4 counterexample: `encrypt` on the invalid unit `Ciphertext([], Constant)`
returns it unchanged, and the returned unit fails the validity invariant — so
the output of `encrypt` does not always satisfy `is_valid`. -/
theorem encrypt_validity_counterexample :
    encrypt 17 4 (fun (l : List Bool) => l) (fun (_ : Nat) (_ : Nat) => 0)
        (fun _ => ((0 : ZMod 17))) 0 (fun _ _ => 0)
        (Data.Ciphertext [] Mode.Constant) 0 0
      = Except.ok (Data.Ciphertext [] Mode.Constant)
    ∧ (Data.Ciphertext [] Mode.Constant : Data (ZMod 17) (List Bool)).is_valid
      = false :=
  ⟨rfl, rfl⟩

/-- C4 (amended): every unit returned by `encrypt` is either a `Private`-tagged
`Ciphertext` or the unchanged input (the latter exactly when the input was not
a `Private`-tagged `Plaintext`); consequently the output satisfies the validity
invariant whenever the input does. -/
theorem encrypt_postcondition (p C : Nat) {D Pt Sc : Type}
    (to_bits_le : D → List Bool) (smul : Pt → Sc → Pt) (xcoord : Pt → ZMod p)
    (dom : ZMod p) (elem : List (ZMod p) → Nat → ZMod p)
    (unit : Data (ZMod p) D) (address : Pt) (randomizer : Sc)
    (c : Data (ZMod p) D)
    (h : encrypt p C to_bits_le smul xcoord dom elem unit address randomizer
        = Except.ok c) :
    ((∃ fs, c = Data.Ciphertext fs Mode.Private)
        ∨ (c = unit ∧ ∀ d, unit ≠ Data.Plaintext d Mode.Private))
    ∧ (unit.is_valid = true → c.is_valid = true) := by
  cases unit with
  | Plaintext d m =>
    cases m with
    | Private =>
      unfold encrypt at h
      dsimp only at h
      cases henc : encode p C to_bits_le d with
      | error e => rw [henc] at h; exact absurd h (by simp)
      | ok pt =>
        rw [henc] at h
        dsimp only at h
        injection h with h
        subst h
        exact ⟨Or.inl ⟨_, rfl⟩, fun _ => rfl⟩
    | Constant =>
      unfold encrypt at h
      dsimp only at h
      injection h with h
      subst h
      exact ⟨Or.inr ⟨rfl, by simp⟩, fun hv => hv⟩
    | Public =>
      unfold encrypt at h
      dsimp only at h
      injection h with h
      subst h
      exact ⟨Or.inr ⟨rfl, by simp⟩, fun hv => hv⟩
  | Ciphertext fs m =>
    unfold encrypt at h
    dsimp only at h
    injection h with h
    subst h
    exact ⟨Or.inr ⟨rfl, by simp⟩, fun hv => hv⟩

/-- Witness for C4 (amended) on the valid input `Ciphertext([2], Private)`. -/
theorem encrypt_postcondition_witness :
    ((∃ fs, (Data.Ciphertext [((2 : ZMod 17))] Mode.Private : Data (ZMod 17) (List Bool))
          = Data.Ciphertext fs Mode.Private)
        ∨ ((Data.Ciphertext [((2 : ZMod 17))] Mode.Private : Data (ZMod 17) (List Bool))
              = Data.Ciphertext [((2 : ZMod 17))] Mode.Private
            ∧ ∀ d, (Data.Ciphertext [((2 : ZMod 17))] Mode.Private : Data (ZMod 17) (List Bool))
              ≠ Data.Plaintext d Mode.Private))
    ∧ ((Data.Ciphertext [((2 : ZMod 17))] Mode.Private : Data (ZMod 17) (List Bool)).is_valid = true →
       (Data.Ciphertext [((2 : ZMod 17))] Mode.Private : Data (ZMod 17) (List Bool)).is_valid = true) :=
  encrypt_postcondition 17 4 (fun l => l) (fun (_ : Nat) (_ : Nat) => 0)
    (fun _ => ((0 : ZMod 17))) 0 (fun _ _ => 0)
    (Data.Ciphertext [((2 : ZMod 17))] Mode.Private) 0 0
    (Data.Ciphertext [((2 : ZMod 17))] Mode.Private) rfl

/-- C5: encrypt no-op cases: a `Constant`- or `Public`-tagged plaintext and any
ciphertext pass through `encrypt` unchanged; only a `Private`-tagged plaintext
is transformed (into a `Private`-tagged ciphertext when encoding succeeds, and
never returned unchanged). -/
theorem encrypt_noop_cases (p C : Nat) {D Pt Sc : Type}
    (to_bits_le : D → List Bool) (smul : Pt → Sc → Pt) (xcoord : Pt → ZMod p)
    (dom : ZMod p) (elem : List (ZMod p) → Nat → ZMod p)
    (address : Pt) (randomizer : Sc) :
    (∀ d : D, encrypt p C to_bits_le smul xcoord dom elem
        (Data.Plaintext d Mode.Constant) address randomizer
      = Except.ok (Data.Plaintext d Mode.Constant))
    ∧ (∀ d : D, encrypt p C to_bits_le smul xcoord dom elem
        (Data.Plaintext d Mode.Public) address randomizer
      = Except.ok (Data.Plaintext d Mode.Public))
    ∧ (∀ (fs : List (ZMod p)) (m : Mode), encrypt p C to_bits_le smul xcoord dom elem
        (Data.Ciphertext fs m) address randomizer
      = Except.ok (Data.Ciphertext fs m))
    ∧ (∀ d : D, encrypt p C to_bits_le smul xcoord dom elem
        (Data.Plaintext d Mode.Private) address randomizer
      = Except.map (fun pt => Data.Ciphertext
          (List.zipWith (fun a b => a + b) pt
            (hash_many_psd8 p elem [dom, xcoord (smul address randomizer)] pt.length))
          Mode.Private)
        (encode p C to_bits_le d))
    ∧ (∀ d : D, encrypt p C to_bits_le smul xcoord dom elem
        (Data.Plaintext d Mode.Private) address randomizer
      ≠ Except.ok (Data.Plaintext d Mode.Private)) := by
  refine ⟨fun d => rfl, fun d => rfl, fun fs m => rfl, fun d => ?_, fun d hcontra => ?_⟩
  · unfold encrypt
    dsimp only
    cases encode p C to_bits_le d with
    | error e => rfl
    | ok pt => rfl
  · unfold encrypt at hcontra
    dsimp only at hcontra
    cases henc : encode p C to_bits_le d with
    | error e => rw [henc] at hcontra; exact absurd hcontra (by simp)
    | ok pt =>
      rw [henc] at hcontra
      dsimp only at hcontra
      injection hcontra with hcontra
      exact absurd hcontra (by simp)

/-- C6: `to_data_id` fails (with the invalid-data error) exactly when the unit
is invalid; on a valid plaintext it hashes the encoding of the payload with the
8-rate sponge hash, on a valid ciphertext it hashes the field elements
directly; in particular it always fails on a `Private`-tagged plaintext. -/
theorem to_data_id_spec (p C : Nat) {D : Type} (to_bits_le : D → List Bool)
    (psd8 : List (ZMod p) → ZMod p) (hC : 0 < C) (hcap : 2 ^ C ≤ p) :
    (∀ u : Data (ZMod p) D,
        (∃ e, to_data_id p C to_bits_le psd8 u = Except.error e) ↔ u.is_valid = false)
    ∧ (∀ (d : D) (m : Mode), (Data.Plaintext d m : Data (ZMod p) D).is_valid = true →
        to_data_id p C to_bits_le psd8 (Data.Plaintext d m)
          = Except.ok (psd8 (encodeFields p C to_bits_le d)))
    ∧ (∀ (fs : List (ZMod p)) (m : Mode),
        (Data.Ciphertext fs m : Data (ZMod p) D).is_valid = true →
        to_data_id p C to_bits_le psd8 (Data.Ciphertext fs m) = Except.ok (psd8 fs))
    ∧ (∀ d : D, to_data_id p C to_bits_le psd8 (Data.Plaintext d Mode.Private)
        = Except.error "Failed to compute the data ID as the data must be encrypted first") := by
  refine ⟨fun u => ?_, fun d m hv => ?_, fun fs m hv => ?_, fun d => rfl⟩
  · cases u with
    | Plaintext d m =>
      cases m <;>
        simp [to_data_id, encode_eq_ok p C to_bits_le hcap, Data.is_valid,
          Mode.is_constant, Mode.is_public, Mode.is_private]
    | Ciphertext fs m =>
      cases m <;>
        simp [to_data_id, Data.is_valid, Mode.is_constant, Mode.is_public,
          Mode.is_private]
  · cases m with
    | Constant =>
      simp [to_data_id, encode_eq_ok p C to_bits_le hcap, Data.is_valid,
        Mode.is_constant, Mode.is_public]
    | Public =>
      simp [to_data_id, encode_eq_ok p C to_bits_le hcap, Data.is_valid,
        Mode.is_constant, Mode.is_public]
    | Private => simp [Data.is_valid, Mode.is_constant, Mode.is_public] at hv
  · cases m with
    | Private => rfl
    | Constant => simp [Data.is_valid, Mode.is_private] at hv
    | Public => simp [Data.is_valid, Mode.is_private] at hv

/-- Witness for C6: on the not-yet-encrypted unit `Plaintext([true], Private)`
the data-id computation fails with the invalid-data error. -/
theorem to_data_id_spec_witness :
    to_data_id 17 4 (fun l => l) (fun l => List.foldr (fun a b => a + b) 1 l)
        (Data.Plaintext [true] Mode.Private)
      = Except.error "Failed to compute the data ID as the data must be encrypted first" :=
  (to_data_id_spec 17 4 (fun l => l) (fun l => List.foldr (fun a b => a + b) 1 l)
    (by decide) (by decide)).2.2.2 [true]

/-- C7: `decrypt` returns plaintext units unchanged; on a ciphertext it
subtracts the hash-derived one-time pad, decodes, and carries the tag through
unchanged without re-validation — so the result of decrypting a
`Private`-tagged ciphertext always fails the validity check. -/
theorem decrypt_spec (p C : Nat) {D Pt Sc : Type}
    (from_bits_le : List Bool → D) (smul : Pt → Sc → Pt) (xcoord : Pt → ZMod p)
    (dom : ZMod p) (elem : List (ZMod p) → Nat → ZMod p)
    (view_key : Sc) (nonce : Pt) :
    (∀ (d : D) (m : Mode), decrypt p C from_bits_le smul xcoord dom elem
        (Data.Plaintext d m) view_key nonce = Except.ok (Data.Plaintext d m))
    ∧ (∀ (fs : List (ZMod p)) (m : Mode), decrypt p C from_bits_le smul xcoord dom elem
        (Data.Ciphertext fs m) view_key nonce
      = Except.ok (Data.Plaintext
          (decode p C from_bits_le (List.zipWith (fun c r => c - r) fs
            (hash_many_psd8 p elem [dom, xcoord (smul nonce view_key)] fs.length)))
          m))
    ∧ (∀ fs : List (ZMod p), ∃ d : D,
        decrypt p C from_bits_le smul xcoord dom elem
            (Data.Ciphertext fs Mode.Private) view_key nonce
          = Except.ok (Data.Plaintext d Mode.Private)
        ∧ (Data.Plaintext d Mode.Private : Data (ZMod p) D).is_valid = false) :=
  ⟨fun _ _ => rfl, fun _ _ => rfl, fun _ => ⟨_, rfl, rfl⟩⟩

end Aleo
